import Mathlib

/-!
Verification development for the AI_Stat repository (Go).

The repository holds two near-duplicate command-line programs that parse the
text output of a version-control log command and aggregate per-author code
statistics.  `MainA` below embeds `src/repo/main.go`; `MainB` embeds
`src/unnamed/part_000`.  Shared helpers embed the Go standard-library
functions the programs call (`strings.Split`, `strings.Fields`,
`strings.SplitN`, `strings.Trim`, `strconv.Atoi`, `strconv.ParseFloat`,
`path/filepath.Ext`) and the two regular expressions the programs compile
(`aigPattern`, `fixPattern`), specialised to those fixed patterns.

Modelling conventions:
- Go strings are Lean `String`s; per-byte logic that only ever inspects
  ASCII is modelled per-`Char` (a non-ASCII byte can never equal an ASCII
  byte, so error outcomes coincide).
- `float64` arithmetic is modelled as exact rational arithmetic on `ℚ`.
  The only float values in the programs are parsed decimal literals and
  products with integer line counts; `math.Round` (round half away from
  zero) is modelled exactly on `ℚ`.  Rational values are built with `mkRat`
  and integer floor division so that every definition evaluates inside the
  kernel.
- Go `int` is modelled as `Int`; `strconv` range errors for 64-bit `int`
  are modelled with explicit `2 ^ 63` bounds.
-/

/-- The byte the programs use as the author-name quote (ASCII 39). -/
def quoteChar : Char := Char.ofNat 39

/-- `unicode.IsSpace`, the separator test of `strings.Fields`:
ASCII whitespace plus the Unicode white-space code points. -/
def goIsSpace (c : Char) : Bool :=
  let n := c.toNat
  n == 9 || n == 10 || n == 11 || n == 12 || n == 13 || n == 32 ||
  n == 0x85 || n == 0xA0 || n == 0x1680 ||
  (0x2000 ≤ n && n ≤ 0x200A) ||
  n == 0x2028 || n == 0x2029 || n == 0x202F || n == 0x205F || n == 0x3000

/-- Splitter core of `strings.Split(s, sep)` for a one-character separator:
emits one piece per separator occurrence plus the final piece.  `acc` holds
the current piece reversed. -/
def splitChar (sep : Char) : List Char → List Char → List String
  | [], acc => [String.mk acc.reverse]
  | c :: cs, acc =>
    if c = sep then String.mk acc.reverse :: splitChar sep cs []
    else splitChar sep cs (c :: acc)

/-- `strings.Split(s, "\n")`. -/
def goLines (s : String) : List String := splitChar (Char.ofNat 10) s.data []

/-- `strings.Split(s, ",")`, used on the extension-list constants. -/
def goSplitComma (s : String) : List String := splitChar (Char.ofNat 44) s.data []

/-- Core of `strings.Fields`: split on maximal runs of white space,
dropping empty fields.  `acc` holds the current field reversed. -/
def fieldsAux : List Char → List Char → List String
  | [], acc => if acc = [] then [] else [String.mk acc.reverse]
  | c :: cs, acc =>
    if goIsSpace c then
      if acc = [] then fieldsAux cs [] else String.mk acc.reverse :: fieldsAux cs []
    else fieldsAux cs (c :: acc)

/-- `strings.Fields(s)`. -/
def goFields (s : String) : List String := fieldsAux s.data []

/-- Core of `strings.SplitN(s, " ", n)`: `r` counts the separators still
allowed to split; the final piece keeps the unsplit remainder. -/
def splitNSpaceAux : Nat → List Char → List Char → List String
  | 0, cs, acc => [String.mk (acc.reverse ++ cs)]
  | _ + 1, [], acc => [String.mk acc.reverse]
  | r + 1, c :: cs, acc =>
    if c = Char.ofNat 32 then String.mk acc.reverse :: splitNSpaceAux r cs []
    else splitNSpaceAux (r + 1) cs (c :: acc)

/-- `strings.SplitN(s, " ", 5)`, used on the identity line of a chunk. -/
def splitN5 (s : String) : List String := splitNSpaceAux 4 s.data []

/-- `strings.Trim(s, cutset)` for the one-character cutset `t`. -/
def trimChar (t : Char) (s : String) : String :=
  String.mk (((s.data.dropWhile (· == t)).reverse.dropWhile (· == t)).reverse)

/-- Digit-string value, the accumulator loop of `strconv.ParseUint`. -/
def digitsToNat (ds : List Char) : Nat :=
  ds.foldl (fun n c => n * 10 + (c.toNat - 48)) 0

/-- Largest value of Go `int` (64-bit). -/
def intMaxNat : Nat := 2 ^ 63 - 1

/-- Magnitude of the smallest value of Go `int` (64-bit). -/
def intMinMag : Nat := 2 ^ 63

/-- Syntactic phase of `strconv.Atoi`: an optional sign followed by at
least one ASCII digit; yields the sign and the digit-string magnitude. -/
def atoiCore (s : String) : Option (Bool × Nat) :=
  match s.data with
  | [] => none
  | c :: cs =>
    let p : Bool × List Char :=
      if c = Char.ofNat 45 then (true, cs)
      else if c = Char.ofNat 43 then (false, cs)
      else (false, c :: cs)
    if p.2 = [] then none
    else if p.2.all Char.isDigit then some (p.1, digitsToNat p.2) else none

/-- Whether `strconv.Atoi(s)` returns a nil error: syntactically valid and
inside the 64-bit `int` range. -/
def atoiOk (s : String) : Bool :=
  match atoiCore s with
  | none => false
  | some (neg, n) =>
    if neg then decide (n ≤ intMinMag) else decide (n ≤ intMaxNat)

/-- The value `strconv.Atoi(s)` returns when its error is ignored:
0 on a syntax error, the clamped extreme on a range error. -/
def atoiVal (s : String) : Int :=
  match atoiCore s with
  | none => 0
  | some (neg, n) =>
    if neg then (if n ≤ intMinMag then -(n : Int) else -(intMinMag : Int))
    else (if n ≤ intMaxNat then (n : Int) else (intMaxNat : Int))

/-- `path/filepath.Ext`: walk the path backwards; the extension is the
suffix from the final dot of the final path element, empty if none. -/
def extRevAux : List Char → List Char → String
  | [], _ => ""
  | c :: cs, acc =>
    if c = Char.ofNat 47 then ""
    else if c = Char.ofNat 46 then String.mk (c :: acc)
    else extRevAux cs (c :: acc)

/-- `path/filepath.Ext(fileName)`. -/
def goExt (s : String) : String := extRevAux s.data.reverse []

/-- Overflow edge of `float64`: decimal values at or above this bound make
`strconv.ParseFloat` return `±Inf` with `ErrRange` (a non-nil error). -/
def floatMaxThreshold : ℚ := mkRat ((2 ^ 1024 - 2 ^ 970 : Nat) : Int) 1

/-- Underflow edge of `float64`: positive decimal values at or below this
bound round to `0.0` in `strconv.ParseFloat`. -/
def floatMinThreshold : ℚ := mkRat 1 (2 ^ 1075)

/-- `strconv.ParseFloat(s, 64)` restricted to the alphabet `[0-9.]` that the
`aigPattern` capture group can produce: at most one dot and at least one
digit.  The decimal value is kept as an exact rational; the `float64` range
edges are modelled by the two thresholds above (overflow is a parse error,
deep underflow collapses to 0). -/
def parseFloatCap (s : String) : Option ℚ :=
  let ds := s.data
  let ipart := ds.takeWhile Char.isDigit
  let rest := ds.dropWhile Char.isDigit
  let build : Option ℚ :=
    match rest with
    | [] => if ipart = [] then none else some (mkRat (digitsToNat ipart) 1)
    | c :: frac =>
      if c = Char.ofNat 46 then
        if frac.all Char.isDigit ∧ (ipart ≠ [] ∨ frac ≠ []) then
          some (mkRat ((digitsToNat ipart * 10 ^ frac.length + digitsToNat frac : Nat) : Int)
            (10 ^ frac.length))
        else none
      else none
  match build with
  | none => none
  | some q =>
    if floatMaxThreshold ≤ q then none
    else if q ≠ 0 ∧ q ≤ floatMinThreshold then some 0
    else some q

/-- `⌊q + 1/2⌋` computed by integer floor division (kernel-executable). -/
def floorPlusHalf (q : ℚ) : Int := (2 * q.num + (q.den : Int)).fdiv (2 * (q.den : Int))

/-- `math.Round(x)` followed by conversion to `int`: round half away from
zero, modelled exactly on `ℚ`. -/
def goRound (q : ℚ) : Int :=
  if q < 0 then -floorPlusHalf (-q) else floorPlusHalf q

/-- `float64(lines) * rate`: scaling an integer by a rational, built with
`mkRat` so it evaluates in the kernel.  Equals `(a : ℚ) * r`. -/
def ratScaleInt (a : Int) (r : ℚ) : ℚ := mkRat (a * r.num) r.den

/-! ### Regular-expression models

The two patterns the programs compile are fixed, so they are embedded as
deterministic consumption functions over `List Char`.  Each `eat…` function
consumes a piece of the input and returns the rest, or `none` when the
piece does not match; this agrees with RE2 on these patterns because the
only nondeterministic atoms (`[^']+`, `\s*`, `[0-9.]+`) are followed by
characters their classes exclude, so the greedy reading is the only one. -/

/-- Consume exactly `n` characters, each satisfying `p`. -/
def eatCount (p : Char → Bool) : Nat → List Char → Option (List Char)
  | 0, cs => some cs
  | _ + 1, [] => none
  | n + 1, c :: cs => if p c then eatCount p n cs else none

/-- Consume exactly the character `c`. -/
def eatChar (c : Char) : List Char → Option (List Char)
  | [] => none
  | x :: xs => if x = c then some xs else none

/-- Consume a maximal nonempty run of characters satisfying `p`
(the combinator for `X+` followed by something `X` excludes). -/
def eatSpan1 (p : Char → Bool) (l : List Char) : Option (List Char) :=
  match l.takeWhile p with
  | [] => none
  | _ :: _ => some (l.dropWhile p)

/-- Consume exactly the literal `lit`. -/
def eatLit : List Char → List Char → Option (List Char)
  | [], l => some l
  | c :: cs, l => (eatChar c l).bind (eatLit cs)

/-- Lowercase-hex test for `[0-9a-f]`. -/
def isHexLower (c : Char) : Bool :=
  (Char.ofNat 48 ≤ c && c ≤ Char.ofNat 57) || (Char.ofNat 97 ≤ c && c ≤ Char.ofNat 102)

/-- The space character. -/
def spChar : Char := Char.ofNat 32

/-- The literal `fix` of `fixPattern`. -/
def fixLit : List Char := [Char.ofNat 102, Char.ofNat 105, Char.ofNat 120]

/-- `\d{n1}<sep>\d{2}<sep>\d{2}`, the common shape of the date and time
pieces of `fixPattern`. -/
def eatNumTriple (n1 : Nat) (sep : Char) (l : List Char) : Option (List Char) :=
  (eatCount Char.isDigit n1 l).bind fun r1 =>
  (eatChar sep r1).bind fun r2 =>
  (eatCount Char.isDigit 2 r2).bind fun r3 =>
  (eatChar sep r3).bind fun r4 =>
  eatCount Char.isDigit 2 r4

/-- `\d{4}-\d{2}-\d{2}`. -/
def eatDate : List Char → Option (List Char) := eatNumTriple 4 (Char.ofNat 45)

/-- `\d{2}:\d{2}:\d{2}`. -/
def eatTime : List Char → Option (List Char) := eatNumTriple 2 (Char.ofNat 58)

/-- The anchored body of
`fixPattern = ^[0-9a-f]{40} <q>[^<q>]+<q> \d{4}-\d{2}-\d{2} \d{2}:\d{2}:\d{2} (fix)`
where `<q>` is the quote character. -/
def fixMatchL (l : List Char) : Option (List Char) :=
  (eatCount isHexLower 40 l).bind fun r1 =>
  (eatChar spChar r1).bind fun r2 =>
  (eatChar quoteChar r2).bind fun r3 =>
  (eatSpan1 (fun c => c != quoteChar) r3).bind fun r4 =>
  (eatChar quoteChar r4).bind fun r5 =>
  (eatChar spChar r5).bind fun r6 =>
  (eatDate r6).bind fun r7 =>
  (eatChar spChar r7).bind fun r8 =>
  (eatTime r8).bind fun r9 =>
  (eatChar spChar r9).bind fun r10 =>
  eatLit fixLit r10

/-- `regexp.MustCompile(fixPattern).MatchString(line)`: the pattern is
anchored at the start and has no end anchor. -/
def fixMatch (line : String) : Bool := (fixMatchL line.data).isSome

/-- Capture-class test for `[0-9.]`. -/
def isCapChar (c : Char) : Bool := c.isDigit || c == Char.ofNat 46

/-- RE2 `\s`, the ASCII class `[\t\n\f\r ]`. -/
def reSpace (c : Char) : Bool :=
  let n := c.toNat
  n == 9 || n == 10 || n == 12 || n == 13 || n == 32

/-- Try `aigPattern = AIG:(\s*([0-9.]+))` at the start of `l`; on success
return the inner capture group (the digit-and-dot run). -/
def tryAIG (l : List Char) : Option (List Char) :=
  (eatLit [Char.ofNat 65, Char.ofNat 73, Char.ofNat 71, Char.ofNat 58] l).bind fun r =>
  match (r.dropWhile reSpace).takeWhile isCapChar with
  | [] => none
  | c :: cs => some (c :: cs)

/-- Leftmost match of `aigPattern`, returning capture group 2
(`FindStringSubmatch` yields `[whole, group1, group2]` when it matches). -/
def aigFindL : List Char → Option (List Char)
  | [] => none
  | c :: cs =>
    match tryAIG (c :: cs) with
    | some cap => some cap
    | none => aigFindL cs

/-- Capture group 2 of the leftmost `aigPattern` match in `s`, if any. -/
def aigFind (s : String) : Option String := (aigFindL s.data).map String.mk

/-! ### Date model for `getDefaultDateRange`

`time.Now()` is modelled as an explicit year/month/day argument; `time.Date`
normalisation and `AddDate` are embedded on that triple (the program only
formats with layout `2006-01-02`, so clock fields never matter). -/

structure GDate where
  year : Int
  month : Int
  day : Int
  deriving DecidableEq

/-- Go leap-year rule. -/
def isLeapYear (y : Int) : Bool :=
  (y % 4 == 0 && y % 100 != 0) || y % 400 == 0

/-- Days in a month of the proleptic Gregorian calendar (month in 1..12). -/
def daysInMonth (y m : Int) : Int :=
  if m = 2 then (if isLeapYear y then 29 else 28)
  else if m = 4 ∨ m = 6 ∨ m = 9 ∨ m = 11 then 30
  else 31

/-- Normalise a year/month pair so the month lands in 1..12. -/
def normYM (y m : Int) : Int × Int :=
  (y + (m - 1).fdiv 12, (m - 1).emod 12 + 1)

/-- Day-overflow normalisation of `time.Date`, with explicit fuel (every
use in the program needs at most one step). -/
def normDayAux : Nat → Int → Int → Int → GDate
  | 0, y, m, d => ⟨y, m, d⟩
  | fuel + 1, y, m, d =>
    if d < 1 then
      let p := normYM y (m - 1)
      normDayAux fuel p.1 p.2 (d + daysInMonth p.1 p.2)
    else if daysInMonth y m < d then
      normDayAux fuel y (m + 1) (d - daysInMonth y m)
    else ⟨y, m, d⟩

/-- `time.Date(y, m, d, 0, 0, 0, 0, loc)` restricted to the calendar day. -/
def timeDate (y m d : Int) : GDate :=
  let p := normYM y m
  normDayAux 10000 p.1 p.2 d

/-- Decimal rendering padded with leading zeros, as layout `2006`/`01`/`02`. -/
def padNum (width : Nat) (n : Int) : String :=
  let s := toString n
  if s.length < width then String.mk (List.replicate (width - s.length) (Char.ofNat 48)) ++ s
  else s

/-- `t.Format("2006-01-02")`. -/
def formatDate (d : GDate) : String :=
  padNum 4 d.year ++ "-" ++ padNum 2 d.month ++ "-" ++ padNum 2 d.day

namespace MainA

/-! Embedding of `src/repo/main.go`. -/

/-- The `includeFileExts` constant. -/
def includeFileExts : String := ".html,.vue,.js,.ts,.tsx,.css,.scss,.cjs,.go,.php,.yaml,.proto"

/-- The `excludeFileExts` constant. -/
def excludeFileExts : String := ".pb.go,.pb.validate.go"

/-- `strings.Split(includeFileExts, ",")` computed in `analyzeCommits`. -/
def includeExts : List String := goSplitComma includeFileExts

/-- `strings.Split(excludeFileExts, ",")` computed in `analyzeCommits`. -/
def excludeExts : List String := goSplitComma excludeFileExts

/-- `CommitStats`; the `AIGRatio` field is named `AIGRate` here because of a
naming restriction of this development. -/
structure CommitStats where
  AddedLines : Int
  DeletedLines : Int
  AIGRate : ℚ
  IsFix : Bool
  deriving DecidableEq

/-- `AuthorStats`. -/
structure AuthorStats where
  Name : String
  Email : String
  TotalAddedLines : Int
  TotalDeletedLines : Int
  TotalAIAddedLines : Int
  TotalAIDeletedLines : Int
  FixCount : Int
  FixAndAIGCount : Int
  deriving DecidableEq

/-- `isFileChangeLine`: at least two fields, and each of the first two is
the literal dash or survives `strconv.Atoi`. -/
def isFileChangeLine (line : String) : Bool :=
  match goFields line with
  | f1 :: f2 :: _ => (f1 == "-" || atoiOk f1) && (f2 == "-" || atoiOk f2)
  | _ => false

/-- `parseFileChange`: fields 0 and 1 through `Atoi` with the error
discarded; the remaining fields joined with no separator form the path. -/
def parseFileChange (change : String) : Int × Int × String :=
  match goFields change with
  | p0 :: p1 :: p2 :: rest =>
    (atoiVal p0, atoiVal p1, if rest ≠ [] then String.join (p2 :: rest) else p2)
  | _ => (0, 0, "")

/-- `isValidFile`: the deny list is scanned first, then the allow list,
both against `filepath.Ext` of the file name. -/
def isValidFile (fileName : String) (includeList excludeList : List String) : Bool :=
  let ext := goExt fileName
  if excludeList.any (fun e => ext == e) then false
  else includeList.any (fun e => ext == e)

/-- `extractAIGRatio` (named `extractAIGRate` here): group 2 of the
`aigPattern` match through `ParseFloat`; a missing match, a parse error or
a negative value gives 0. -/
def extractAIGRate (commit : String) : ℚ :=
  match aigFind commit with
  | some cap =>
    match parseFloatCap cap with
    | none => 0
    | some q => if q < 0 then 0 else q
  | none => 0

/-- The commit-boundary test inside `splitCommits`: the line has a first
field and its byte length is exactly 40. -/
def markerStart (line : String) : Bool :=
  match goFields line with
  | t :: _ => t.utf8ByteSize == 40
  | [] => false

/-- The accumulation loop of `splitCommits`: `commits` is the output so
far, `cur` the `strings.Builder` content. -/
def splitCommitsAux : List String → List String → String → List String
  | [], commits, cur => if cur ≠ "" then commits ++ [cur] else commits
  | line :: ls, commits, cur =>
    if line = "" then splitCommitsAux ls commits cur
    else
      let p := if markerStart line = true ∧ cur ≠ "" then (commits ++ [cur], "") else (commits, cur)
      splitCommitsAux ls p.1 (if p.2 ≠ "" then p.2 ++ "\n" ++ line else p.2 ++ line)

/-- `splitCommits`. -/
def splitCommits (output : String) : List String :=
  splitCommitsAux (goLines output) [] ""

/-- The message/file-change scan of `processCommit` over `lines[1:]`: skip
blank lines, stop at the first file-change line recording its absolute
index, collect the rest as message continuation lines. -/
def findChange : List String → Nat → List String × Option Nat
  | [], _ => ([], none)
  | l :: ls, i =>
    if l = "" then findChange ls (i + 1)
    else if isFileChangeLine l then ([], some i)
    else
      let r := findChange ls (i + 1)
      (l :: r.1, r.2)

/-- `strings.Join(messageLines, "\n")`. -/
def joinNL : List String → String
  | [] => ""
  | [x] => x
  | x :: y :: xs => x ++ "\n" ++ joinNL (y :: xs)

/-- `processCommit` (printing elided): split the chunk into lines, split
the first line into at most five space fields, bail out to a zero result
when fewer than five appear, otherwise assemble the message, extract the
AI ratio and fix flag, and sum added/deleted lines over the valid file
changes.  Returns `(stats, author, email)`. -/
def processCommit (commit : String) : CommitStats × String × String :=
  match goLines commit with
  | [] => (⟨0, 0, 0, false⟩, "", "")
  | firstLine :: restLines =>
    let parts := splitN5 firstLine
    if parts.length < 5 then (⟨0, 0, 0, false⟩, "", "")
    else
      let author := trimChar quoteChar (parts.getD 1 "")
      let email := parts.getD 2 ""
      let message := parts.getD 4 ""
      let scan := findChange restLines 1
      let fullMessage := joinNL (message :: scan.1)
      let idx := match scan.2 with | some i => i | none => 1
      let fileChanges := (firstLine :: restLines).drop idx
      let sums := fileChanges.foldl
        (fun (acc : Int × Int) change =>
          if change = "" then acc
          else
            let pc := parseFileChange change
            if isValidFile pc.2.2 includeExts excludeExts then (acc.1 + pc.1, acc.2 + pc.2.1)
            else acc)
        (0, 0)
      (⟨sums.1, sums.2, extractAIGRate fullMessage, fixMatch firstLine⟩, author, email)

/-- `int(math.Round(float64(lines) * ratio))`, the derived AI line count. -/
def aiLineCount (lines : Int) (rate : ℚ) : Int := goRound (ratScaleInt lines rate)

/-- `updateAuthorStats`, with the author map as a function from the email
key to an optional bucket. -/
def updateAuthorStats (m : String → Option AuthorStats) (author email : String)
    (cs : CommitStats) : String → Option AuthorStats :=
  let prev : AuthorStats :=
    match m email with
    | some s => s
    | none => ⟨author, email, 0, 0, 0, 0, 0, 0⟩
  let s2 : AuthorStats :=
    { prev with
      TotalAddedLines := prev.TotalAddedLines + cs.AddedLines
      TotalDeletedLines := prev.TotalDeletedLines + cs.DeletedLines
      TotalAIAddedLines := prev.TotalAIAddedLines + aiLineCount cs.AddedLines cs.AIGRate
      TotalAIDeletedLines := prev.TotalAIDeletedLines + aiLineCount cs.DeletedLines cs.AIGRate
      FixCount := prev.FixCount + (if cs.IsFix then 1 else 0)
      FixAndAIGCount := prev.FixAndAIGCount + (if cs.IsFix ∧ 0 < cs.AIGRate then 1 else 0) }
  fun k => if k = email then some s2 else m k

/-- One iteration of the loop in `analyzeCommits`. -/
def analyzeStep (m : String → Option AuthorStats) (commit : String) :
    String → Option AuthorStats :=
  if commit = "" then m
  else
    let r := processCommit commit
    updateAuthorStats m r.2.1 r.2.2 r.1

/-- `analyzeCommits`. -/
def analyzeCommits (commits : List String) : String → Option AuthorStats :=
  commits.foldl analyzeStep (fun _ => none)

/-- The half-month window `getDefaultDateRange` computes from the clock. -/
def defaultWindow (now : GDate) : String × String :=
  if now.day ≤ 15 then
    let firstOfThisMonth := timeDate now.year now.month 1
    let lastMonth := timeDate firstOfThisMonth.year (firstOfThisMonth.month - 1) firstOfThisMonth.day
    let periodStart := timeDate lastMonth.year lastMonth.month 16
    let firstOfNextMonth := timeDate lastMonth.year (lastMonth.month + 1) 1
    let periodEnd := timeDate firstOfNextMonth.year firstOfNextMonth.month (firstOfNextMonth.day - 1)
    (formatDate periodStart, formatDate periodEnd)
  else
    (formatDate (timeDate now.year now.month 1), formatDate (timeDate now.year now.month 15))

/-- `getDefaultDateRange`, with `time.Now()` passed explicitly. -/
def getDefaultDateRange (now : GDate) (since untl : String) : String × String :=
  if since ≠ "" ∧ untl ≠ "" then (since, untl) else defaultWindow now

end MainA

namespace MainB

/-! Embedding of the five pure core functions of `src/unnamed/part_000`
(the second program variant), transcribed from that file. -/

/-- The `includeFileExts` constant of the second variant. -/
def includeFileExts : String := ".html,.vue,.js,.ts,.tsx,.css,.scss,.cjs,.go,.php,.yaml,.proto"

/-- The `excludeFileExts` constant of the second variant. -/
def excludeFileExts : String := ".pb.go,.pb.validate.go"

/-- `isFileChangeLine` of the second variant. -/
def isFileChangeLine (line : String) : Bool :=
  match goFields line with
  | f1 :: f2 :: _ => (f1 == "-" || atoiOk f1) && (f2 == "-" || atoiOk f2)
  | _ => false

/-- `parseFileChange` of the second variant. -/
def parseFileChange (change : String) : Int × Int × String :=
  match goFields change with
  | p0 :: p1 :: p2 :: rest =>
    (atoiVal p0, atoiVal p1, if rest ≠ [] then String.join (p2 :: rest) else p2)
  | _ => (0, 0, "")

/-- `isValidFile` of the second variant. -/
def isValidFile (fileName : String) (includeList excludeList : List String) : Bool :=
  let ext := goExt fileName
  if excludeList.any (fun e => ext == e) then false
  else includeList.any (fun e => ext == e)

/-- `extractAIGRatio` of the second variant (same `aigPattern`). -/
def extractAIGRate (commit : String) : ℚ :=
  match aigFind commit with
  | some cap =>
    match parseFloatCap cap with
    | none => 0
    | some q => if q < 0 then 0 else q
  | none => 0

/-- The commit-boundary test inside `splitCommits` of the second variant. -/
def markerStart (line : String) : Bool :=
  match goFields line with
  | t :: _ => t.utf8ByteSize == 40
  | [] => false

/-- The accumulation loop of `splitCommits` of the second variant. -/
def splitCommitsAux : List String → List String → String → List String
  | [], commits, cur => if cur ≠ "" then commits ++ [cur] else commits
  | line :: ls, commits, cur =>
    if line = "" then splitCommitsAux ls commits cur
    else
      let p := if markerStart line = true ∧ cur ≠ "" then (commits ++ [cur], "") else (commits, cur)
      splitCommitsAux ls p.1 (if p.2 ≠ "" then p.2 ++ "\n" ++ line else p.2 ++ line)

/-- `splitCommits` of the second variant. -/
def splitCommits (output : String) : List String :=
  splitCommitsAux (goLines output) [] ""

end MainB

/-! ### Spec-side definitions and concrete inputs -/

/-- The no-email identity-line shape (§4.2 shape a) assembled from its
pieces: `<hash> <q><name><q> <date> <time> <message-head>`. -/
def lineAShape (hash name date time msg : List Char) : List Char :=
  hash ++ (spChar :: quoteChar ::
    (name ++ (quoteChar :: spChar :: (date ++ (spChar :: (time ++ (spChar :: msg)))))))

/-- The email-carrying identity-line shape (§4.2 shape b):
`<hash> <q><name><q> <email> <date> <time> <message-head>`. -/
def lineBShape (hash name email date time msg : List Char) : List Char :=
  hash ++ (spChar :: quoteChar ::
    (name ++ (quoteChar :: spChar ::
      (email ++ (spChar :: (date ++ (spChar :: (time ++ (spChar :: msg)))))))))

/-- Modelled from the spec (refinement-comparison definition, following the
claim wording, not the source): the literal token `fix` appears as a
dedicated trailing group at the end of the structured identity line, in
either of the two supported identity-line shapes, including the shape that
carries an author email. -/
def SpecFixTagged (l : List Char) : Prop :=
  ∃ hash name date time rest,
    hash.length = 40 ∧ (∀ c ∈ hash, isHexLower c = true) ∧
    name ≠ [] ∧ (∀ c ∈ name, (c != quoteChar) = true) ∧
    eatDate date = some [] ∧ eatTime time = some [] ∧
    (l = lineAShape hash name date time (fixLit ++ rest) ∨
      ∃ email, email ≠ [] ∧ (∀ c ∈ email, (c != quoteChar) = true ∧ (c != spChar) = true) ∧
        l = lineBShape hash name email date time (fixLit ++ rest))

/-- Declarative description of the strings `strconv.Atoi` accepts: an
optional sign, a nonempty digit run, and the signed value within the
64-bit `int` range. -/
def AtoiAccepts (s : String) : Prop :=
  ∃ sgn ds, s.data = sgn ++ ds ∧
    (sgn = [] ∨ sgn = [Char.ofNat 45] ∨ sgn = [Char.ofNat 43]) ∧
    ds ≠ [] ∧ (∀ c ∈ ds, c.isDigit = true) ∧
    (if sgn = [Char.ofNat 45] then digitsToNat ds ≤ intMinMag else digitsToNat ds ≤ intMaxNat)

/-- The quote character as a one-character string. -/
def quoteStr : String := String.mk [quoteChar]

/-- Forty lowercase `a` characters, the commit id of the end-to-end
scenario. -/
def c1hash : String := String.mk (List.replicate 40 (Char.ofNat 97))

/-- The input chunk of the end-to-end scenario: the identity line
`aaaa…aaaa 'Alice' 2024-01-01 10:00:00 Fix bug AIG: 0.5` followed by the
numstat line `10<TAB>2<TAB>main.go`. -/
def c1chunk : String :=
  c1hash ++ " " ++ quoteStr ++ "Alice" ++ quoteStr ++
    " 2024-01-01 10:00:00 Fix bug AIG: 0.5\n10\t2\tmain.go"

/-- A concrete email-carrying identity line whose message head starts with
the token `fix`. -/
def cexLineB : List Char :=
  lineBShape (List.replicate 40 (Char.ofNat 97)) "Bob".data "bob@x.com".data
    "2024-01-01".data "10:00:00".data ("fix crash".data)

/-! ### Supporting lemmas -/

set_option maxRecDepth 100000

theorem string_eq_empty_iff (s : String) : s = "" ↔ s.data = [] := by
  rw [String.ext_iff]

theorem append_ne_empty_right (a b : String) (hb : b ≠ "") : a ++ b ≠ "" := by
  intro h
  rw [string_eq_empty_iff, String.data_append] at h
  exact hb ((string_eq_empty_iff b).mpr (List.append_eq_nil.mp h).2)

theorem splitCommitsAuxEq (ls : List String) :
    ∀ commits cur, MainA.splitCommitsAux ls commits cur = MainB.splitCommitsAux ls commits cur := by
  induction ls with
  | nil => intro c u; rfl
  | cons l ls ih =>
    intro c u
    by_cases hl : l = ""
    · simp only [MainA.splitCommitsAux, MainB.splitCommitsAux, if_pos hl]
      exact ih c u
    · simp only [MainA.splitCommitsAux, MainB.splitCommitsAux, if_neg hl]
      exact ih _ _

/-! ### Claims -/

/-- C9: the two variants implement identical pure core functions — for
every input, `splitCommits`, `isFileChangeLine`, `parseFileChange`,
`isValidFile` and `extractAIGRatio` of `src/repo/main.go` return exactly
the same result as the functions of the same name in
`src/unnamed/part_000`. -/
theorem c9_variant_equivalence :
    (∀ s, MainA.splitCommits s = MainB.splitCommits s) ∧
    (∀ l, MainA.isFileChangeLine l = MainB.isFileChangeLine l) ∧
    (∀ c, MainA.parseFileChange c = MainB.parseFileChange c) ∧
    (∀ f il el, MainA.isValidFile f il el = MainB.isValidFile f il el) ∧
    (∀ m, MainA.extractAIGRate m = MainB.extractAIGRate m) :=
  ⟨fun s => splitCommitsAuxEq (goLines s) [] "", fun _ => rfl, fun _ => rfl,
    fun _ _ _ => rfl, fun _ => rfl⟩

/-- C2 (code bug): evaluation of the extension filter at the three sample
paths of the claim.  `foo.md` is excluded and `foo.go` is included as
claimed, but `foo.pb.go` is COUNTED: `filepath.Ext` keeps only the suffix
from the final dot (`.go`), so the multi-dot deny-list entries `.pb.go`
and `.pb.validate.go` can never match and the deny list is dead code,
contradicting the evident intent of the `excludeFileExts` constant. -/
theorem c2_extension_filter_eval :
    MainA.isValidFile "foo.pb.go" MainA.includeExts MainA.excludeExts = true ∧
    MainA.isValidFile "foo.md" MainA.includeExts MainA.excludeExts = false ∧
    MainA.isValidFile "foo.go" MainA.includeExts MainA.excludeExts = true ∧
    goExt "foo.pb.go" = ".go" :=
  ⟨by decide, by decide, by decide, by decide⟩

/-- C1 counterexample: on the scenario chunk the extracted `isFix` flag is
NOT true — the message head `Fix bug` is capitalised while `fixPattern`
only matches the lowercase literal `fix`. -/
theorem c1_counterexample : ¬ (MainA.processCommit c1chunk).1.IsFix = true := by
  decide

/-- C1 amended: processing the scenario chunk yields
`CommitStats{added 10, deleted 2, aiRatio 1/2, isFix false}` with author
`Alice` and the email slot holding the date token `2024-01-01`, and folding
it into an empty map yields, under that key, the bucket
`(Alice, 10, 2, 5, 1, fixCount 0, fixAndAIGCount 0)`. -/
theorem c1_amended_scenario :
    MainA.processCommit c1chunk = (⟨10, 2, mkRat 1 2, false⟩, "Alice", "2024-01-01") ∧
    MainA.analyzeCommits [c1chunk] "2024-01-01" =
      some ⟨"Alice", "2024-01-01", 10, 2, 5, 1, 0, 0⟩ :=
  ⟨by decide, by decide⟩

/-- C4 counterexample: the input `hello` has no line whose first
whitespace-delimited token is 40 characters long and hexadecimal, yet the
splitter returns one chunk, not zero. -/
theorem c4_counterexample :
    MainA.splitCommits "hello" = ["hello"] ∧
    (∀ l ∈ goLines "hello", ∀ t ∈ goFields l,
      ¬(t.utf8ByteSize = 40 ∧ t.data.all isHexLower = true)) :=
  ⟨by decide, by decide⟩

/-- C6 counterexample: `strconv.Atoi` accepts signed numbers, so the line
`-5<TAB>3<TAB>main.go`, whose first field is the negative number `-5`,
DOES qualify as a file-change line. -/
theorem c6_counterexample :
    MainA.isFileChangeLine "-5\t3\tmain.go" = true ∧ atoiVal "-5" = -5 :=
  ⟨by decide, by decide⟩

/-- C8 counterexample: folding the malformed chunk `hello` into an empty
statistics map does NOT leave it unchanged — an all-zero bucket keyed by
the empty author identity is created. -/
theorem c8_counterexample :
    MainA.analyzeCommits ["hello"] "" = some ⟨"", "", 0, 0, 0, 0, 0, 0⟩ := by
  decide

/-- C10: the default date-range computation returns the supplied `since`
and `until` unchanged only when both are non-empty; when at least one of
them is empty, both returned values come from the computed default window
and the supplied values are discarded (the result is a function of the
clock alone). -/
theorem c10_default_range (now : GDate) (since untl : String) :
    (since ≠ "" → untl ≠ "" → MainA.getDefaultDateRange now since untl = (since, untl)) ∧
    ((since = "" ∨ untl = "") →
      MainA.getDefaultDateRange now since untl = MainA.defaultWindow now) := by
  constructor
  · intro h1 h2
    simp [MainA.getDefaultDateRange, h1, h2]
  · intro h
    have hn : ¬(since ≠ "" ∧ untl ≠ "") := by
      rcases h with h | h <;> simp [h]
    simp [MainA.getDefaultDateRange, hn]

/-- Witness for C10 at concrete inputs. -/
theorem c10_default_range_witness :
    MainA.getDefaultDateRange ⟨2024, 3, 20⟩ "2024-01-01" "2024-02-01" =
      ("2024-01-01", "2024-02-01") ∧
    MainA.getDefaultDateRange ⟨2024, 3, 20⟩ "2024-01-01" "" = ("2024-03-01", "2024-03-15") :=
  ⟨(c10_default_range ⟨2024, 3, 20⟩ "2024-01-01" "2024-02-01").1 (by decide) (by decide),
    ((c10_default_range ⟨2024, 3, 20⟩ "2024-01-01" "").2 (Or.inr rfl)).trans (by decide)⟩

theorem splitAux_eq_nil_iff (ls : List String) :
    ∀ commits cur, MainA.splitCommitsAux ls commits cur = [] ↔
      (commits = [] ∧ cur = "" ∧ ∀ l ∈ ls, l = "") := by
  induction ls with
  | nil =>
    intro c u
    by_cases hu : u = ""
    · simp [MainA.splitCommitsAux, hu]
    · simp [MainA.splitCommitsAux, hu]
  | cons l ls ih =>
    intro c u
    by_cases hl : l = ""
    · simp only [MainA.splitCommitsAux, if_pos hl]
      rw [ih c u]
      simp [hl]
    · simp only [MainA.splitCommitsAux, if_neg hl]
      rw [ih]
      have hC : ∀ x : String, (if x ≠ "" then x ++ "\n" ++ l else x ++ l) ≠ "" := by
        intro x
        by_cases hx : x = ""
        · simp only [hx, if_neg]
          simp
          exact fun h => absurd ((string_eq_empty_iff _).mp h)
            (by simpa [string_eq_empty_iff] using hl)
        · rw [if_pos hx]
          exact append_ne_empty_right _ _ hl
      constructor
      · rintro ⟨-, h2, -⟩
        exact absurd h2 (hC _)
      · rintro ⟨-, -, hall⟩
        exact absurd (hall l (List.mem_cons_self _ _)) hl

theorem splitAux_ne_empty (ls : List String) :
    ∀ commits cur, (∀ c ∈ commits, c ≠ "") →
      ∀ c ∈ MainA.splitCommitsAux ls commits cur, c ≠ "" := by
  induction ls with
  | nil =>
    intro cs u h c hc
    simp only [MainA.splitCommitsAux] at hc
    by_cases hu : u = ""
    · rw [if_neg (by simp [hu])] at hc
      exact h c hc
    · rw [if_pos hu] at hc
      rcases List.mem_append.mp hc with h1 | h1
      · exact h c h1
      · rw [List.mem_singleton.mp h1]
        exact hu
  | cons l ls ih =>
    intro cs u h c hc
    by_cases hl : l = ""
    · simp only [MainA.splitCommitsAux, if_pos hl] at hc
      exact ih cs u h c hc
    · simp only [MainA.splitCommitsAux, if_neg hl] at hc
      refine ih _ _ ?_ c hc
      by_cases hm : MainA.markerStart l = true ∧ u ≠ ""
      · simp only [if_pos hm]
        intro x hx
        rcases List.mem_append.mp hx with h1 | h1
        · exact h x h1
        · rw [List.mem_singleton.mp h1]
          exact hm.2
      · simp only [if_neg hm]
        exact h

/-- C4 corrected: the splitter returns zero chunks exactly when every line
of the input is empty (in particular on the empty input), and it never
emits an empty chunk; but an input with a non-empty line and NO marker
line still yields a chunk (see the counterexample), because every
non-blank line is accumulated into the current chunk regardless of
markers, and the marker test itself checks only that the first field is 40
bytes long, not that it is hexadecimal. -/
theorem c4_amended_splitter (s : String) :
    (MainA.splitCommits s = [] ↔ ∀ l ∈ goLines s, l = "") ∧
    (∀ c ∈ MainA.splitCommits s, c ≠ "") := by
  constructor
  · rw [MainA.splitCommits, splitAux_eq_nil_iff]
    simp
  · exact splitAux_ne_empty (goLines s) [] "" (by simp)

/-- Witness for C4 at the empty input. -/
theorem c4_amended_splitter_witness : MainA.splitCommits "" = [] :=
  (c4_amended_splitter "").1.mpr (by decide)

/-- C8 corrected: a chunk whose first line splits into fewer than five
space fields contributes nothing — zero stats, empty author and email —
and every other key of the map is untouched, and processing continues;
BUT the map does not stay unchanged: an all-zero bucket keyed by the
empty author identity is created (or an existing one is left as it was). -/
theorem c8_amended_malformed (c : String) (m : String → Option MainA.AuthorStats) (k : String)
    (hc : c ≠ "") (h5 : (splitN5 ((goLines c).headD "")).length < 5) :
    MainA.processCommit c = (⟨0, 0, 0, false⟩, "", "") ∧
    MainA.analyzeStep m c "" =
      some (match m "" with | some b => b | none => ⟨"", "", 0, 0, 0, 0, 0, 0⟩) ∧
    (k ≠ "" → MainA.analyzeStep m c k = m k) := by
  have hz : MainA.aiLineCount 0 0 = 0 := by decide
  have hpc : MainA.processCommit c = (⟨0, 0, 0, false⟩, "", "") := by
    rcases hgl : goLines c with _ | ⟨f, rest⟩
    · simp [MainA.processCommit, hgl]
    · have h5f : (splitN5 f).length < 5 := by
        rw [hgl] at h5
        simpa using h5
      simp [MainA.processCommit, hgl, h5f]
  refine ⟨hpc, ?_, ?_⟩
  · rw [MainA.analyzeStep, if_neg hc, hpc]
    cases hm : m "" with
    | none => simp [MainA.updateAuthorStats, hm, hz]
    | some b =>
      cases b
      simp [MainA.updateAuthorStats, hm, hz]
  · intro hk
    rw [MainA.analyzeStep, if_neg hc, hpc]
    simp only [MainA.updateAuthorStats]
    rw [if_neg hk]

/-- Witness for C8 at the chunk `hello` and the empty map. -/
theorem c8_amended_malformed_witness :
    MainA.processCommit "hello" = (⟨0, 0, 0, false⟩, "", "") ∧
    MainA.analyzeStep (fun _ => none) "hello" "x" = none :=
  ⟨(c8_amended_malformed "hello" (fun _ => none) "x" (by decide) (by decide)).1,
    ((c8_amended_malformed "hello" (fun _ => none) "x" (by decide) (by decide)).2.2
      (by decide)).trans rfl⟩

theorem mkRat_natCast_nonneg (n d : Nat) : 0 ≤ mkRat (n : Int) d := by
  rw [Rat.mkRat_eq_divInt, Rat.divInt_eq_div]
  positivity

theorem rangeFilter_nonneg (q0 q : ℚ) (h0 : 0 ≤ q0)
    (h : (if floatMaxThreshold ≤ q0 then none
          else if q0 ≠ 0 ∧ q0 ≤ floatMinThreshold then (some 0 : Option ℚ)
          else some q0) = some q) : 0 ≤ q := by
  by_cases h1 : floatMaxThreshold ≤ q0
  · simp [h1] at h
  · rw [if_neg h1] at h
    by_cases h2 : q0 ≠ 0 ∧ q0 ≤ floatMinThreshold
    · rw [if_pos h2] at h
      exact Option.some_inj.mp h ▸ le_refl 0
    · rw [if_neg h2] at h
      exact Option.some_inj.mp h ▸ h0

theorem parseFloatCap_nonneg (s : String) (q : ℚ) (h : parseFloatCap s = some q) : 0 ≤ q := by
  rcases hr : s.data.dropWhile Char.isDigit with _ | ⟨c, frac⟩ <;>
    simp only [parseFloatCap, hr] at h
  · by_cases ht : s.data.takeWhile Char.isDigit = []
    · simp [ht] at h
    · rw [if_neg ht] at h
      exact rangeFilter_nonneg _ q (mkRat_natCast_nonneg _ _) h
  · by_cases hdot : c = Char.ofNat 46
    · rw [if_pos hdot] at h
      by_cases hcond : frac.all Char.isDigit = true ∧
          (s.data.takeWhile Char.isDigit ≠ [] ∨ frac ≠ [])
      · rw [if_pos hcond] at h
        exact rangeFilter_nonneg _ q (mkRat_natCast_nonneg _ _) h
      · rw [if_neg hcond] at h
        simp at h
    · rw [if_neg hdot] at h
      simp at h

/-- C5: the extracted AI ratio is 0 when the `AIG:` tag is absent and when
the captured value fails to parse; a parsed value is returned exactly as
parsed, unclamped above 1 (it is never negative, since the capture class
is `[0-9.]`); and the sample message with tag value `-0.3` yields 0 (the
minus sign is outside the capture class, so the tag does not match). -/
theorem c5_aig_extraction (msg : String) :
    (aigFind msg = none → MainA.extractAIGRate msg = 0) ∧
    (∀ cap, aigFind msg = some cap → parseFloatCap cap = none →
      MainA.extractAIGRate msg = 0) ∧
    (∀ cap q, aigFind msg = some cap → parseFloatCap cap = some q →
      MainA.extractAIGRate msg = q) ∧
    MainA.extractAIGRate "a AIG: -0.3 b" = 0 := by
  refine ⟨?_, ?_, ?_, by decide⟩
  · intro h
    simp [MainA.extractAIGRate, h]
  · intro cap h hp
    simp [MainA.extractAIGRate, h, hp]
  · intro cap q h hp
    have hq := parseFloatCap_nonneg cap q hp
    simp [MainA.extractAIGRate, h, hp, not_lt.mpr hq]

/-- Witness for C5: a tag value above 1 passes through unclamped, and a
message without the tag yields 0. -/
theorem c5_aig_extraction_witness :
    MainA.extractAIGRate "x AIG: 1.5 y" = mkRat 3 2 ∧ MainA.extractAIGRate "hello" = 0 :=
  ⟨(c5_aig_extraction "x AIG: 1.5 y").2.2.1 "1.5" (mkRat 3 2) (by decide) (by decide),
    (c5_aig_extraction "hello").1 (by decide)⟩

theorem ratScaleInt_eq (a : Int) (r : ℚ) : ratScaleInt a r = (a : ℚ) * r := by
  rw [ratScaleInt, Rat.mkRat_eq_divInt, Rat.divInt_eq_div]
  push_cast
  rw [mul_div_assoc, Rat.num_div_den]

theorem floorPlusHalf_eq (q : ℚ) : floorPlusHalf q = ⌊q + 1 / 2⌋ := by
  have hden : (0 : ℚ) < (q.den : ℚ) := by exact_mod_cast q.pos
  have hq : q * (q.den : ℚ) = (q.num : ℚ) := Rat.mul_den_eq_num q
  have h2 : q + 1 / 2 = ((2 * q.num + (q.den : Int) : Int) : ℚ) / ((2 * q.den : Nat) : ℚ) := by
    rw [eq_div_iff (by positivity)]
    push_cast
    linear_combination 2 * hq
  rw [floorPlusHalf, Int.fdiv_eq_ediv _ (by positivity), h2, Rat.floor_intCast_div_natCast]
  push_cast
  ring_nf

theorem goRound_eq (q : ℚ) : goRound q = if q < 0 then -⌊-q + 1 / 2⌋ else ⌊q + 1 / 2⌋ := by
  rw [goRound, floorPlusHalf_eq, floorPlusHalf_eq]

theorem floor_half_eq_zero : ⌊(1 / 2 : ℚ)⌋ = 0 := by
  rw [Int.floor_eq_zero_iff]
  constructor <;> norm_num

/-- C7: the AI-attributed counts are derived as
`round(addedLines * aiRatio)` and `round(deletedLines * aiRatio)` with
round-half-away-from-zero semantics (`goRound`, the model of
`int(math.Round(·))` — the tie conjuncts exhibit the away-from-zero
behaviour on both sides of zero); consequently, when `aiRatio ≤ 1` the AI
counts never exceed the corresponding line counts, and a zero line count
gives a zero AI count for every ratio. -/
theorem c7_rounding (a d : Int) (r : ℚ) :
    (0 ≤ a → r ≤ 1 → MainA.aiLineCount a r ≤ a) ∧
    (0 ≤ d → r ≤ 1 → MainA.aiLineCount d r ≤ d) ∧
    MainA.aiLineCount 0 r = 0 ∧
    MainA.aiLineCount a r = goRound ((a : ℚ) * r) ∧
    (∀ n : Int, 0 ≤ n → goRound ((n : ℚ) + 1 / 2) = n + 1) ∧
    (∀ n : Int, n ≤ 0 → goRound ((n : ℚ) - 1 / 2) = n - 1) := by
  have key : ∀ x : Int, 0 ≤ x → r ≤ 1 → MainA.aiLineCount x r ≤ x := by
    intro x hx hr
    rw [MainA.aiLineCount, ratScaleInt_eq, goRound_eq]
    by_cases hneg : (x : ℚ) * r < 0
    · rw [if_pos hneg]
      have h1 : (0 : ℚ) ≤ -((x : ℚ) * r) + 1 / 2 := by linarith
      have h2 : (0 : Int) ≤ ⌊-((x : ℚ) * r) + 1 / 2⌋ := Int.floor_nonneg.mpr h1
      omega
    · rw [if_neg hneg]
      have hxq : (0 : ℚ) ≤ (x : ℚ) := by exact_mod_cast hx
      have hqa : (x : ℚ) * r ≤ (x : ℚ) := by
        calc (x : ℚ) * r ≤ (x : ℚ) * 1 := mul_le_mul_of_nonneg_left hr hxq
        _ = (x : ℚ) := mul_one _
      have hmono : ⌊(x : ℚ) * r + 1 / 2⌋ ≤ ⌊(x : ℚ) + 1 / 2⌋ :=
        Int.floor_le_floor (by linarith)
      have h3 : ⌊(x : ℚ) + 1 / 2⌋ = x := by
        rw [Int.floor_int_add, floor_half_eq_zero, add_zero]
      omega
  refine ⟨key a, key d, ?_, ?_, ?_, ?_⟩
  · rw [MainA.aiLineCount, ratScaleInt_eq, goRound_eq]
    have h0 : ((0 : Int) : ℚ) * r = 0 := by push_cast; ring
    rw [h0, if_neg (lt_irrefl 0), zero_add, floor_half_eq_zero]
  · rw [MainA.aiLineCount, ratScaleInt_eq]
  · intro n hn
    rw [goRound_eq]
    have hnq : (0 : ℚ) ≤ (n : ℚ) := by exact_mod_cast hn
    rw [if_neg (by linarith)]
    have : (n : ℚ) + 1 / 2 + 1 / 2 = ((n + 1 : Int) : ℚ) := by push_cast; ring
    rw [this, Int.floor_intCast]
  · intro n hn
    rw [goRound_eq]
    have hnq : (n : ℚ) ≤ 0 := by exact_mod_cast hn
    rw [if_pos (by linarith)]
    have : -((n : ℚ) - 1 / 2) + 1 / 2 = ((1 - n : Int) : ℚ) := by push_cast; ring
    rw [this, Int.floor_intCast]
    omega

/-- Witness for C7 at the scenario values 10 added lines and ratio 1/2. -/
theorem c7_rounding_witness :
    (0 : Int) ≤ 10 ∧ (mkRat 1 2 : ℚ) ≤ 1 ∧
    MainA.aiLineCount 10 (mkRat 1 2) ≤ 10 ∧ MainA.aiLineCount 10 (mkRat 1 2) = 5 :=
  ⟨by decide, by decide,
    (c7_rounding 10 2 (mkRat 1 2)).1 (by decide) (by decide), by decide⟩

theorem atoiOk_iff (s : String) : atoiOk s = true ↔ AtoiAccepts s := by
  rcases hd : s.data with _ | ⟨c, cs⟩
  · have hcore : atoiCore s = none := by simp [atoiCore, hd]
    simp only [atoiOk, hcore, Bool.false_eq_true, false_iff]
    rintro ⟨sgn, ds, hsplit, -, hne, -, -⟩
    rw [hd] at hsplit
    exact hne (List.append_eq_nil.mp hsplit.symm).2
  · by_cases hm : c = Char.ofNat 45
    · subst hm
      by_cases hcs : cs = []
      · have hcore : atoiCore s = none := by simp [atoiCore, hd, hcs]
        simp only [atoiOk, hcore, Bool.false_eq_true, false_iff]
        rintro ⟨sgn, ds, hsplit, hsgn, hne, hdig, -⟩
        rw [hd] at hsplit
        rcases hsgn with rfl | rfl | rfl
        · rw [List.nil_append] at hsplit
          exact absurd (hdig _ (hsplit ▸ List.mem_cons_self _ _)) (by decide)
        · rw [List.singleton_append] at hsplit
          injection hsplit with _ h2
          exact hne (h2.symm.trans hcs)
        · rw [List.singleton_append] at hsplit
          injection hsplit with h1 _
          exact absurd h1 (by decide)
      · by_cases hall : cs.all Char.isDigit
        · have hcore : atoiCore s = some (true, digitsToNat cs) := by
            simp [atoiCore, hd, hcs, hall]
          simp only [atoiOk, hcore]
          simp only [if_true, decide_eq_true_eq]
          constructor
          · intro hr
            exact ⟨[Char.ofNat 45], cs, by simp [hd], Or.inr (Or.inl rfl), hcs,
              fun x hx => List.all_eq_true.mp hall x hx, by rw [if_pos rfl]; exact hr⟩
          · rintro ⟨sgn, ds, hsplit, hsgn, hne, hdig, hrange⟩
            rw [hd] at hsplit
            rcases hsgn with rfl | rfl | rfl
            · rw [List.nil_append] at hsplit
              exact absurd (hdig _ (hsplit ▸ List.mem_cons_self _ _)) (by decide)
            · rw [List.singleton_append] at hsplit
              injection hsplit with _ h2
              rw [if_pos rfl] at hrange
              exact h2 ▸ hrange
            · rw [List.singleton_append] at hsplit
              injection hsplit with h1 _
              exact absurd h1 (by decide)
        · have hcore : atoiCore s = none := by simp [atoiCore, hd, hcs, hall]
          simp only [atoiOk, hcore, Bool.false_eq_true, false_iff]
          rintro ⟨sgn, ds, hsplit, hsgn, hne, hdig, -⟩
          rw [hd] at hsplit
          rcases hsgn with rfl | rfl | rfl
          · rw [List.nil_append] at hsplit
            exact absurd (hdig _ (hsplit ▸ List.mem_cons_self _ _)) (by decide)
          · rw [List.singleton_append] at hsplit
            injection hsplit with _ h2
            exact hall (List.all_eq_true.mpr fun x hx => hdig x (h2 ▸ hx))
          · rw [List.singleton_append] at hsplit
            injection hsplit with h1 _
            exact absurd h1 (by decide)
    · by_cases hp : c = Char.ofNat 43
      · subst hp
        by_cases hcs : cs = []
        · have hcore : atoiCore s = none := by simp [atoiCore, hd, hcs]
          simp only [atoiOk, hcore, Bool.false_eq_true, false_iff]
          rintro ⟨sgn, ds, hsplit, hsgn, hne, hdig, -⟩
          rw [hd] at hsplit
          rcases hsgn with rfl | rfl | rfl
          · rw [List.nil_append] at hsplit
            exact absurd (hdig _ (hsplit ▸ List.mem_cons_self _ _)) (by decide)
          · rw [List.singleton_append] at hsplit
            injection hsplit with h1 _
            exact absurd h1 (by decide)
          · rw [List.singleton_append] at hsplit
            injection hsplit with _ h2
            exact hne (h2.symm.trans hcs)
        · by_cases hall : cs.all Char.isDigit
          · have hcore : atoiCore s = some (false, digitsToNat cs) := by
              simp [atoiCore, hd, hcs, hall]
            simp only [atoiOk, hcore]
            simp only [Bool.false_eq_true, if_false, decide_eq_true_eq]
            constructor
            · intro hr
              exact ⟨[Char.ofNat 43], cs, by simp [hd], Or.inr (Or.inr rfl), hcs,
                fun x hx => List.all_eq_true.mp hall x hx, by rw [if_neg (by decide)]; exact hr⟩
            · rintro ⟨sgn, ds, hsplit, hsgn, hne, hdig, hrange⟩
              rw [hd] at hsplit
              rcases hsgn with rfl | rfl | rfl
              · rw [List.nil_append] at hsplit
                exact absurd (hdig _ (hsplit ▸ List.mem_cons_self _ _)) (by decide)
              · rw [List.singleton_append] at hsplit
                injection hsplit with h1 _
                exact absurd h1 (by decide)
              · rw [List.singleton_append] at hsplit
                injection hsplit with _ h2
                rw [if_neg (by decide)] at hrange
                exact h2 ▸ hrange
          · have hcore : atoiCore s = none := by simp [atoiCore, hd, hcs, hall]
            simp only [atoiOk, hcore, Bool.false_eq_true, false_iff]
            rintro ⟨sgn, ds, hsplit, hsgn, hne, hdig, -⟩
            rw [hd] at hsplit
            rcases hsgn with rfl | rfl | rfl
            · rw [List.nil_append] at hsplit
              exact absurd (hdig _ (hsplit ▸ List.mem_cons_self _ _)) (by decide)
            · rw [List.singleton_append] at hsplit
              injection hsplit with h1 _
              exact absurd h1 (by decide)
            · rw [List.singleton_append] at hsplit
              injection hsplit with _ h2
              exact hall (List.all_eq_true.mpr fun x hx => hdig x (h2 ▸ hx))
      · by_cases hall : (c :: cs).all Char.isDigit
        · have hcore : atoiCore s = some (false, digitsToNat (c :: cs)) := by
            simp [atoiCore, hd, hm, hp, hall]
          simp only [atoiOk, hcore]
          simp only [Bool.false_eq_true, if_false, decide_eq_true_eq]
          constructor
          · intro hr
            exact ⟨[], c :: cs, by simp [hd], Or.inl rfl, List.cons_ne_nil c cs,
              fun x hx => List.all_eq_true.mp hall x hx, by rw [if_neg (by decide)]; exact hr⟩
          · rintro ⟨sgn, ds, hsplit, hsgn, hne, hdig, hrange⟩
            rw [hd] at hsplit
            rcases hsgn with rfl | rfl | rfl
            · rw [List.nil_append] at hsplit
              rw [if_neg (by decide)] at hrange
              exact hsplit ▸ hrange
            · rw [List.singleton_append] at hsplit
              injection hsplit with h1 _
              exact absurd h1 hm
            · rw [List.singleton_append] at hsplit
              injection hsplit with h1 _
              exact absurd h1 hp
        · have hcore : atoiCore s = none := by simp [atoiCore, hd, hm, hp, hall]
          simp only [atoiOk, hcore, Bool.false_eq_true, false_iff]
          rintro ⟨sgn, ds, hsplit, hsgn, hne, hdig, -⟩
          rw [hd] at hsplit
          rcases hsgn with rfl | rfl | rfl
          · rw [List.nil_append] at hsplit
            exact hall (List.all_eq_true.mpr fun x hx => hdig x (hsplit ▸ hx))
          · rw [List.singleton_append] at hsplit
            injection hsplit with h1 _
            exact absurd h1 hm
          · rw [List.singleton_append] at hsplit
            injection hsplit with h1 _
            exact absurd h1 hp

/-- C6 corrected: the structural file-change-line test accepts exactly the
lines with at least two whitespace fields whose first two fields are each
the literal dash or a string `strconv.Atoi` accepts — an optional `+`/`-`
sign followed by digits within the 64-bit `int` range; in particular a
NEGATIVE first or second field such as `-5` does qualify. -/
theorem c6_amended_filechange (line : String) :
    MainA.isFileChangeLine line = true ↔
      ∃ f1 f2 rest, goFields line = f1 :: f2 :: rest ∧
        (f1 = "-" ∨ AtoiAccepts f1) ∧ (f2 = "-" ∨ AtoiAccepts f2) := by
  rcases hf : goFields line with _ | ⟨f1, _ | ⟨f2, rest⟩⟩
  · simp [MainA.isFileChangeLine, hf]
  · simp [MainA.isFileChangeLine, hf]
  · simp only [MainA.isFileChangeLine, hf]
    rw [Bool.and_eq_true, Bool.or_eq_true, Bool.or_eq_true, beq_iff_eq, beq_iff_eq,
      atoiOk_iff, atoiOk_iff]
    constructor
    · rintro ⟨h1, h2⟩
      exact ⟨f1, f2, rest, rfl, h1, h2⟩
    · rintro ⟨g1, g2, grest, heq, h1, h2⟩
      obtain ⟨rfl, rfl, -⟩ : f1 = g1 ∧ f2 = g2 ∧ rest = grest := by
        simpa using heq
      exact ⟨h1, h2⟩

/-- Witness for C6 at a well-formed numstat line. -/
theorem c6_amended_filechange_witness : MainA.isFileChangeLine "10 2 a.go" = true :=
  (c6_amended_filechange "10 2 a.go").mpr
    ⟨"10", "2", ["a.go"], by decide,
      Or.inr ⟨[], "10".data, rfl, Or.inl rfl, by decide, by decide, by decide⟩,
      Or.inr ⟨[], "2".data, rfl, Or.inl rfl, by decide, by decide, by decide⟩⟩

theorem eatCount_append (p : Char → Bool) : ∀ (xs r : List Char), (∀ c ∈ xs, p c = true) →
    eatCount p xs.length (xs ++ r) = some r := by
  intro xs
  induction xs with
  | nil => intro r _; rfl
  | cons c cs ih =>
    intro r h
    have hc : p c = true := h c (List.mem_cons_self _ _)
    simp only [List.length_cons, List.cons_append, eatCount, hc, if_true]
    exact ih r fun x hx => h x (List.mem_cons_of_mem _ hx)

theorem eatCount_sound (p : Char → Bool) : ∀ (n : Nat) (l t : List Char),
    eatCount p n l = some t → ∃ xs, l = xs ++ t ∧ xs.length = n ∧ ∀ c ∈ xs, p c = true := by
  intro n
  induction n with
  | zero =>
    intro l t h
    refine ⟨[], ?_, rfl, by simp⟩
    simpa [eatCount] using h
  | succ n ih =>
    intro l t h
    rcases l with _ | ⟨c, cs⟩
    · simp [eatCount] at h
    · by_cases hp : p c = true
      · simp only [eatCount, hp, if_true] at h
        obtain ⟨xs, rfl, hlen, hall⟩ := ih cs t h
        refine ⟨c :: xs, rfl, by simp [hlen], ?_⟩
        intro x hx
        rcases List.mem_cons.mp hx with rfl | hx2
        · exact hp
        · exact hall x hx2
      · simp only [eatCount, hp, if_false] at h
        exact absurd h (by simp)

theorem eatChar_cons (c : Char) (r : List Char) : eatChar c (c :: r) = some r := by
  simp [eatChar]

theorem eatChar_sound (c : Char) (l t : List Char) (h : eatChar c l = some t) : l = c :: t := by
  rcases l with _ | ⟨x, xs⟩
  · simp [eatChar] at h
  · by_cases hx : x = c
    · subst hx
      have hxs : xs = t := by simpa [eatChar] using h
      rw [hxs]
    · simp [eatChar, hx] at h

theorem eatLit_append (lit : List Char) : ∀ r, eatLit lit (lit ++ r) = some r := by
  induction lit with
  | nil => intro r; rfl
  | cons c cs ih =>
    intro r
    simp only [List.cons_append, eatLit, eatChar_cons, Option.some_bind]
    exact ih r

theorem eatLit_isSome_iff (lit : List Char) : ∀ l, (eatLit lit l).isSome = true ↔
    ∃ r, l = lit ++ r := by
  induction lit with
  | nil =>
    intro l
    simp [eatLit]
  | cons c cs ih =>
    intro l
    rcases l with _ | ⟨x, xs⟩
    · simp [eatLit, eatChar]
    · by_cases hx : x = c
      · subst hx
        simp only [eatLit, eatChar_cons, Option.some_bind]
        rw [ih xs]
        constructor
        · rintro ⟨r, rfl⟩
          exact ⟨r, rfl⟩
        · rintro ⟨r, hr⟩
          injection hr with _ h2
          exact ⟨r, h2⟩
      · constructor
        · intro h
          simp [eatLit, eatChar, hx] at h
        · rintro ⟨r, hr⟩
          injection hr with h1 _
          exact absurd h1 hx

theorem takeWhile_append_all (p : Char → Bool) : ∀ (name : List Char) (x : Char) (r : List Char),
    (∀ c ∈ name, p c = true) → p x = false →
    (name ++ x :: r).takeWhile p = name ∧ (name ++ x :: r).dropWhile p = x :: r := by
  intro name
  induction name with
  | nil =>
    intro x r _ hx
    simp [List.takeWhile_cons, List.dropWhile_cons, hx]
  | cons a as ih =>
    intro x r hall hx
    have ha : p a = true := hall a (List.mem_cons_self _ _)
    have hrec := ih x r (fun c hc => hall c (List.mem_cons_of_mem _ hc)) hx
    simp [List.takeWhile_cons, List.dropWhile_cons, ha, hrec.1, hrec.2]

theorem eatSpan1_boundary (p : Char → Bool) (name : List Char) (x : Char) (r : List Char)
    (hname : name ≠ []) (hall : ∀ c ∈ name, p c = true) (hx : p x = false) :
    eatSpan1 p (name ++ x :: r) = some (x :: r) := by
  obtain ⟨ht, hdr⟩ := takeWhile_append_all p name x r hall hx
  rcases name with _ | ⟨a, as⟩
  · exact absurd rfl hname
  · simp only [eatSpan1, ht, hdr]

theorem eatNumTriple_append (n1 : Nat) (sep : Char) (d r : List Char)
    (h : eatNumTriple n1 sep d = some []) : eatNumTriple n1 sep (d ++ r) = some r := by
  simp only [eatNumTriple] at h ⊢
  rcases h1 : eatCount Char.isDigit n1 d with _ | t1
  · rw [h1] at h
    exact absurd h (by simp)
  · rw [h1, Option.some_bind] at h
    rcases h2 : eatChar sep t1 with _ | t2
    · rw [h2] at h
      exact absurd h (by simp)
    · rw [h2, Option.some_bind] at h
      rcases h3 : eatCount Char.isDigit 2 t2 with _ | t3
      · rw [h3] at h
        exact absurd h (by simp)
      · rw [h3, Option.some_bind] at h
        rcases h4 : eatChar sep t3 with _ | t4
        · rw [h4] at h
          exact absurd h (by simp)
        · rw [h4, Option.some_bind] at h
          obtain ⟨xs1, rfl, hl1, hp1⟩ := eatCount_sound _ _ _ _ h1
          have ht1 := eatChar_sound _ _ _ h2
          subst ht1
          obtain ⟨xs2, rfl, hl2, hp2⟩ := eatCount_sound _ _ _ _ h3
          have ht3 := eatChar_sound _ _ _ h4
          subst ht3
          obtain ⟨xs3, ht4, hl3, hp3⟩ := eatCount_sound _ _ _ _ h
          rw [List.append_nil] at ht4
          subst ht4
          have hassoc : (xs1 ++ sep :: (xs2 ++ sep :: t4)) ++ r =
              xs1 ++ (sep :: (xs2 ++ (sep :: (t4 ++ r)))) := by simp
          rw [hassoc]
          have e1 := eatCount_append Char.isDigit xs1 (sep :: (xs2 ++ (sep :: (t4 ++ r)))) hp1
          have e3 := eatCount_append Char.isDigit xs2 (sep :: (t4 ++ r)) hp2
          have e5 := eatCount_append Char.isDigit t4 r hp3
          rw [hl1] at e1
          rw [hl2] at e3
          rw [hl3] at e5
          rw [e1, Option.some_bind, eatChar_cons, Option.some_bind, e3,
            Option.some_bind, eatChar_cons, Option.some_bind, e5]

theorem eatDate_head_fail (e : Char) (es : List Char) (he : e.isDigit = false) :
    eatDate (e :: es) = none := by
  simp [eatDate, eatNumTriple, eatCount, he]

theorem fixMatchL_shape (hash name rest : List Char)
    (h40 : hash.length = 40) (hhex : ∀ c ∈ hash, isHexLower c = true)
    (hname : name ≠ []) (hq : ∀ c ∈ name, (c != quoteChar) = true) :
    fixMatchL (hash ++ (spChar :: quoteChar :: (name ++ (quoteChar :: spChar :: rest)))) =
      ((eatDate rest).bind fun r7 =>
       (eatChar spChar r7).bind fun r8 =>
       (eatTime r8).bind fun r9 =>
       (eatChar spChar r9).bind fun r10 =>
       eatLit fixLit r10) := by
  have e1 : eatCount isHexLower 40
      (hash ++ (spChar :: quoteChar :: (name ++ (quoteChar :: spChar :: rest)))) =
      some (spChar :: quoteChar :: (name ++ (quoteChar :: spChar :: rest))) := by
    rw [← h40]
    exact eatCount_append isHexLower hash
      (spChar :: quoteChar :: (name ++ (quoteChar :: spChar :: rest))) hhex
  have e4 : eatSpan1 (fun c => c != quoteChar) (name ++ quoteChar :: spChar :: rest) =
      some (quoteChar :: spChar :: rest) :=
    eatSpan1_boundary _ _ _ _ hname hq (by simp)
  simp only [fixMatchL, e1, Option.some_bind, eatChar_cons, e4]

/-- C3 corrected: `isFix` is true exactly when the identity line has the
NO-EMAIL shape and the message head begins with the lowercase characters
`fix` (as a case-sensitive prefix, not necessarily a whole word); identity
lines carrying an author email never set `isFix` (shown here for every
email whose first character is not a digit — the date pattern of
`fixPattern` then fails at the email field), even though the variant that
produces email-carrying lines uses this very pattern. -/
theorem c3_amended_fixflag (hash name date time msg : List Char)
    (h40 : hash.length = 40) (hhex : ∀ c ∈ hash, isHexLower c = true)
    (hname : name ≠ []) (hq : ∀ c ∈ name, (c != quoteChar) = true)
    (hdate : eatDate date = some []) (htime : eatTime time = some []) :
    (fixMatch (String.mk (lineAShape hash name date time msg)) = true ↔
      ∃ r, msg = fixLit ++ r) ∧
    (∀ e es, e.isDigit = false →
      fixMatch (String.mk (lineBShape hash name (e :: es) date time msg)) = false) := by
  constructor
  · have hfm : fixMatchL (lineAShape hash name date time msg) = eatLit fixLit msg := by
      rw [lineAShape, fixMatchL_shape hash name _ h40 hhex hname hq]
      have ed : eatDate (date ++ (spChar :: (time ++ (spChar :: msg)))) =
          some (spChar :: (time ++ (spChar :: msg))) :=
        eatNumTriple_append _ _ _ _ hdate
      have et : eatTime (time ++ (spChar :: msg)) = some (spChar :: msg) :=
        eatNumTriple_append _ _ _ _ htime
      rw [ed, Option.some_bind, eatChar_cons, Option.some_bind, et, Option.some_bind,
        eatChar_cons, Option.some_bind]
    show (fixMatchL (lineAShape hash name date time msg)).isSome = true ↔ _
    rw [hfm]
    exact eatLit_isSome_iff _ _
  · intro e es he
    have hfm : fixMatchL (lineBShape hash name (e :: es) date time msg) = none := by
      rw [lineBShape, fixMatchL_shape hash name _ h40 hhex hname hq]
      have hd0 : eatDate ((e :: es) ++ (spChar :: (date ++ (spChar :: (time ++ (spChar :: msg)))))) = none :=
        eatDate_head_fail e (es ++ (spChar :: (date ++ (spChar :: (time ++ (spChar :: msg)))))) he
      rw [hd0, Option.none_bind]
    show (fixMatchL (lineBShape hash name (e :: es) date time msg)).isSome = false
    rw [hfm]
    rfl

/-- Witness for C3 at a concrete no-email line tagged `fix it`. -/
theorem c3_amended_fixflag_witness :
    fixMatch (String.mk (lineAShape (List.replicate 40 (Char.ofNat 97)) "Bob".data
      "2024-01-01".data "10:00:00".data ("fix it".data))) = true :=
  (c3_amended_fixflag (List.replicate 40 (Char.ofNat 97)) "Bob".data
    "2024-01-01".data "10:00:00".data ("fix it".data)
    (by decide) (by decide) (by decide) (by decide) (by decide) (by decide)).1.mpr
    ⟨" it".data, by decide⟩

/-- C3 counterexample: a concrete email-carrying identity line whose
message head carries the trailing `fix` group satisfies the claim-side
predicate, yet `fixPattern` does not match it — `isFix` is false. -/
theorem c3_counterexample :
    SpecFixTagged cexLineB ∧ fixMatch (String.mk cexLineB) = false := by
  constructor
  · refine ⟨List.replicate 40 (Char.ofNat 97), "Bob".data, "2024-01-01".data,
      "10:00:00".data, " crash".data, by decide, by decide, by decide, by decide,
      by decide, by decide,
      Or.inr ⟨"bob@x.com".data, by decide, by decide, by decide⟩⟩
  · decide
